import Mathlib

/-!
Verification of the plenumsbot core (`plenumsbot.py`, class `Plenum`).

The Python source is embedded shallowly: dates are modelled as proleptic
Gregorian ordinals (`Int`, the value of `datetime.date.toordinal`), documents
as `String` / `List Char`, and the regular expressions used by the source are
compiled by hand into deterministic matchers (every `\s*` in those patterns is
followed by a character that is not whitespace, or by an anchor, so greedy
matching needs no backtracking and the matchers below are exact).
-/

set_option maxRecDepth 10000

/-- `date.weekday()` for a date given by its ordinal: ordinal 1 (0001-01-01)
is a Monday, i.e. weekday 0. -/
def pyWeekday (d : Int) : Int := (d - 1) % 7

/-- `Plenum._calc_next_date`: `delta = dow - today.weekday()`; if
`delta <= 0` add 7; return `today + delta` days. -/
def calc_next_date (dow today : Int) : Int :=
  if dow - pyWeekday today ≤ 0 then today + (dow - pyWeekday today) + 7
  else today + (dow - pyWeekday today)

/-- `Plenum._calc_last_date`: `delta = dow - today.weekday()`; if
`delta > 0` subtract 7; return `today + delta` days. -/
def calc_last_date (dow today : Int) : Int :=
  if dow - pyWeekday today > 0 then today + (dow - pyWeekday today) - 7
  else today + (dow - pyWeekday today)

/-! ### Text primitives (Python string semantics) -/

/-- Python whitespace (the characters matched by `str.isspace` and by `\s`
in `re` on the inputs this program handles). -/
def pySpace (c : Char) : Bool :=
  c.toNat = 32 || c.toNat = 9 || c.toNat = 10 || c.toNat = 13 ||
  c.toNat = 11 || c.toNat = 12 || c.toNat = 28 || c.toNat = 29 ||
  c.toNat = 30 || c.toNat = 31 || c.toNat = 133 || c.toNat = 160

/-- ASCII decimal digit, the characters matched by `\d` here. -/
def pyDigit (c : Char) : Bool :=
  decide (48 ≤ c.toNat) && decide (c.toNat ≤ 57)

/-- Line boundary characters recognised by `str.splitlines`. -/
def pyLineBreak (c : Char) : Bool :=
  c.toNat = 10 || c.toNat = 13 || c.toNat = 11 || c.toNat = 12 ||
  c.toNat = 28 || c.toNat = 29 || c.toNat = 30 || c.toNat = 133 ||
  c.toNat = 8232 || c.toNat = 8233

/-- Worker for `str.splitlines`: `"\r\n"` counts as a single boundary and a
trailing boundary produces no final empty line. -/
def splitlinesGo : List Char → List Char → List (List Char)
  | [], acc => if acc.isEmpty then [] else [acc.reverse]
  | '\r' :: '\n' :: rest, acc => acc.reverse :: splitlinesGo rest []
  | c :: rest, acc =>
      if pyLineBreak c then acc.reverse :: splitlinesGo rest []
      else splitlinesGo rest (c :: acc)

/-- `str.splitlines` at the `String` level. -/
def pySplitlines (s : String) : List String :=
  (splitlinesGo s.data []).map fun l => String.mk l

/-- `str.strip(chars)` generalised over a character predicate. -/
def pyStripOn (p : Char → Bool) (l : List Char) : List Char :=
  ((l.dropWhile p).reverse.dropWhile p).reverse

/-- `str.strip()` on a character list. -/
def pyStripWsL (l : List Char) : List Char := pyStripOn pySpace l

/-- `str.strip("=")` on a character list. -/
def stripEqL (l : List Char) : List Char := pyStripOn (fun c => c = '=') l

/-- `str.strip("\n")` on a character list. -/
def stripNlL (l : List Char) : List Char := pyStripOn (fun c => c = '\n') l

/-- `"\n".join` on character lists. -/
def joinNL : List (List Char) → List Char
  | [] => []
  | [x] => x
  | x :: y :: rest => x ++ '\n' :: joinNL (y :: rest)

/-- `"\n".join` at the `String` level. -/
def joinLines (l : List String) : String :=
  String.mk (joinNL (l.map fun s => s.data))

/-- Python list slicing `l[a:b]` (negative ends count from the back and
out-of-range bounds are clamped). -/
def pySlice {α : Type} (l : List α) (a b : Int) : List α :=
  let n : Int := l.length
  let a2 := if a < 0 then max (n + a) 0 else min a n
  let b2 := if b < 0 then max (n + b) 0 else min b n
  (l.take b2.toNat).drop a2.toNat

/-- Python `list.insert(n, x)` for a non-negative index (past-the-end indices
append, as in Python). -/
def pyInsert {α : Type} (n : Nat) (x : α) (l : List α) : List α :=
  l.take n ++ x :: l.drop n

/-- First index whose element satisfies `p` (`list.index` when the element is
present); returns the length when nothing matches. -/
def pyListIdx {α : Type} (p : α → Bool) : List α → Nat
  | [] => 0
  | x :: xs => if p x then 0 else pyListIdx p xs + 1

/-- First index whose element satisfies `p`, or `none` (models the
`try: list.index ... except ValueError` idiom). -/
def idxOfP {α : Type} (p : α → Bool) : List α → Option Nat
  | [] => none
  | x :: xs => if p x then some 0 else (idxOfP p xs).map fun n => n + 1

/-- Python string `<` (lexicographic by code point). -/
def lexLt : List Char → List Char → Bool
  | _, [] => false
  | [], _ :: _ => true
  | a :: as, b :: bs => decide (a < b) || (a == b && lexLt as bs)

/-- `needle` begins `hay`. -/
def startsWithL : List Char → List Char → Bool
  | [], _ => true
  | _ :: _, [] => false
  | a :: as, b :: bs => a == b && startsWithL as bs

/-- Python substring containment (`hay.find(needle) >= 0`). -/
def containsSub (needle hay : List Char) : Bool :=
  (List.range (hay.length + 1)).any fun i => startsWithL needle (hay.drop i)

/-- `s` occurs contiguously inside `t`. -/
def subSeg {α : Type} (s t : List α) : Prop := ∃ u v, u ++ s ++ v = t

/-- The empty string (used as a `getD` default). -/
def emptyStr : String := String.mk []

/-! ### `Plenum.last_plenum_took_place` -/

/-- Index of the last `'\n'` in a character list, if any. -/
def lastNl : List Char → Option Nat
  | [] => none
  | c :: rest =>
      match lastNl rest with
      | some k => some (k + 1)
      | none => if c = '\n' then some 0 else none

/-- Positions at which `^` can match under `re.MULTILINE`: the start of the
text and the position after every `'\n'`. -/
def lineStarts (s : List Char) : List Nat :=
  0 :: (List.range s.length).filterMap fun i =>
    if s.getD i ' ' = '\n' then some (i + 1) else none

/-- `$` under `re.MULTILINE` after a greedy `\s*`: succeeds iff the rest is
all whitespace (end of text) or a `'\n'` occurs in its whitespace prefix. -/
def endeTailCheck (c : List Char) : Bool :=
  c.all pySpace || (c.takeWhile pySpace).any fun x => x == '\n'

/-- Matcher for `Ende:\s*\d{2}:\d{2}\s*Uhr\s*$` on an already lowercased
text (`re.IGNORECASE` is realised by lowercasing; every `\s*` is followed by
a non-whitespace literal, so greedy matching is deterministic). -/
def matchEndeCore (m : List Char) : Bool :=
  if m.take 5 = ("ende:").data then
    match (m.drop 5).dropWhile pySpace with
    | d1 :: d2 :: c :: d3 :: d4 :: rest =>
        if pyDigit d1 && pyDigit d2 && c == ':' && pyDigit d3 && pyDigit d4 then
          if (rest.dropWhile pySpace).take 3 = ("uhr").data then
            endeTailCheck ((rest.dropWhile pySpace).drop 3)
          else false
        else false
    | _ => false
  else false

/-- One attempt of `re.search(r"^Ende:\s*\d{2}:\d{2}\s*Uhr\s*$", ..., M|I)`
at a given position. -/
def matchEndeAt (l : List Char) : Bool := matchEndeCore (l.map Char.toLower)

/-- `re.search` for the `Ende:` pattern: some `^` position matches. -/
def endeSearch (s : List Char) : Bool :=
  (lineStarts s).any fun p => matchEndeAt (s.drop p)

/-- `"\n".join(page_lines[-2:])`: the last two lines (or fewer) re-joined. -/
def lastTwoFragment (page : List Char) : List Char :=
  let pl := splitlinesGo page []
  joinNL (pl.drop (pl.length - 2))

/-- `Plenum.last_plenum_took_place` on a character list. -/
def lastPlenumTookPlaceL (page : List Char) : Bool :=
  endeSearch (lastTwoFragment page)

/-- `Plenum.last_plenum_took_place`. -/
def last_plenum_took_place (page : String) : Bool :=
  lastPlenumTookPlaceL page.data

/-- Declarative reading of `\s*$` under `re.MULTILINE`: the tail is entirely
whitespace (the match ends at the end of the text) or splits at a newline
after a whitespace run (the match ends at a line end). -/
def EndeTailOK (c : List Char) : Prop :=
  (∀ x ∈ c, pySpace x = true) ∨
  ∃ c1 c2, c = c1 ++ '\n' :: c2 ∧ ∀ x ∈ c1, pySpace x = true

/-- Declarative reading of the `Ende:` pattern on a lowercased text: it
decomposes into the literal `ende:`, a whitespace run, an `HH:MM` token, a
whitespace run, the literal `uhr`, and a line-ending tail. The whitespace
runs may contain newlines (`\s` matches `'\n'`). -/
def EndeMatchLow (m : List Char) : Prop :=
  ∃ a d1 d2 d3 d4 b c,
    m = ("ende:").data ++ a ++ [d1, d2, ':', d3, d4] ++ b ++
      ("uhr").data ++ c ∧
    (∀ x ∈ a, pySpace x = true) ∧
    pyDigit d1 = true ∧ pyDigit d2 = true ∧ pyDigit d3 = true ∧
    pyDigit d4 = true ∧
    (∀ x ∈ b, pySpace x = true) ∧ EndeTailOK c

/-! ### `Plenum.extract_content` -/

/-- A line matches `re.match(r"^={5}[^=]*={5}$", line.strip())`: its stripped
form is five `'='`, text without `'='`, five `'='`. -/
def isHeadingLineL (l : List Char) : Bool :=
  let s := pyStripWsL l
  decide (10 ≤ s.length) && decide (s.take 5 = List.replicate 5 '=') &&
  decide (s.drop (s.length - 5) = List.replicate 5 '=') &&
  ((s.drop 5).take (s.length - 10)).all fun c => !(c == '=')

/-- The indices of the heading lines of a page, in order. -/
def headingIdxList (pl : List (List Char)) : List Int :=
  (List.range pl.length).filterMap fun i =>
    if isHeadingLineL (pl.getD i []) then some (i : Int) else none

/-- The `(start, next_boundary - 1)` pairs built by `extract_content` from
`section_index` (which is the heading indices plus `len(pagelist) - 1`);
`list.index` always finds the first occurrence of a value. -/
def sectionBounds (si : List Int) : List (Int × Int) :=
  si.filterMap fun idx =>
    let p := pyListIdx (fun x => decide (x = idx)) si
    if p = si.length - 1 then none
    else some (idx, si.getD (p + 1) 0 - 1)

/-- `Plenum.extract_content` on a character list: returns the
`(headline, body)` pairs exactly as the source builds them. -/
def extractContentL (page : List Char) : List (List Char × List Char) :=
  let pl := splitlinesGo page []
  let si := headingIdxList pl ++ [(pl.length : Int) - 1]
  (sectionBounds si).map fun sec =>
    (pyStripWsL (stripEqL (pl.getD sec.1.toNat [])),
     joinNL (pySlice pl (sec.1 + 1) sec.2))

/-- `Plenum.extract_content`. -/
def extract_content (page : String) : List (String × String) :=
  (extractContentL page.data).map fun sec =>
    (String.mk sec.1, String.mk sec.2)

/-- Number of heading lines of a page. -/
def headingLineCount (page : String) : Nat :=
  (headingIdxList (splitlinesGo page.data [])).length

/-- Whether the final line of the page is itself a heading line. -/
def lastLineIsHeading (page : String) : Bool :=
  let pl := splitlinesGo page.data []
  match pl.getLast? with
  | some l => isHeadingLineL l
  | none => false

/-! ### `Plenum.upcoming_events` -/

/-- One attempt of `re.findall(r"^(\s*={5}\s*Termine\s*={5}\s*)$", ..., M|I)`
at a `^` position: returns the number of characters the (whole-match) group
spans. The final greedy `\s*` swallows as much whitespace as `$` allows:
everything when the rest is all whitespace, otherwise up to (excluding) the
last `'\n'` of the whitespace prefix. -/
def matchTermineAt (l : List Char) : Option Nat :=
  let l1 := l.dropWhile pySpace
  if l1.take 5 = List.replicate 5 '=' then
    let l2 := (l1.drop 5).dropWhile pySpace
    if (l2.take 7).map Char.toLower = ("termine").data then
      let l3 := (l2.drop 7).dropWhile pySpace
      if l3.take 5 = List.replicate 5 '=' then
        let l4 := l3.drop 5
        let pre := l4.takeWhile pySpace
        if pre.length = l4.length then some l.length
        else
          match lastNl pre with
          | some k => some (l.length - l4.length + k)
          | none => none
      else none
    else none
  else none

/-- The first (leftmost) group the `Termine` heading pattern finds. -/
def termineGroup (s : List Char) : Option (List Char) :=
  ((lineStarts s).filterMap fun p =>
    (matchTermineAt (s.drop p)).map fun len => (s.drop p).take len).head?

/-- One line against `re.findall(r"^\s{2,4}\*\s(\d{4}-\d{2}-\d{2})(.*)$", line)`:
2 to 4 leading whitespace characters, `'*'`, one whitespace, an ISO date,
then the rest of the line as description. -/
def bulletOf (line : List Char) : Option (List Char × List Char) :=
  let k := (line.takeWhile pySpace).length
  if 2 ≤ k ∧ k ≤ 4 then
    match line.drop k with
    | '*' :: c :: rest =>
        if pySpace c then
          match rest with
          | y1 :: y2 :: y3 :: y4 :: h1 :: m1 :: m2 :: h2 :: n1 :: n2 :: desc =>
              if pyDigit y1 && pyDigit y2 && pyDigit y3 && pyDigit y4 &&
                 h1 == '-' && pyDigit m1 && pyDigit m2 && h2 == '-' &&
                 pyDigit n1 && pyDigit n2 then
                some ([y1, y2, y3, y4, h1, m1, m2, h2, n1, n2], desc)
              else none
          | _ => none
        else none
    | _ => none
  else none

/-- The `for line in plenum_page_list[events_begin:]` loop: collect each
bullet whose date string is strictly greater than `nd`. -/
def scanEvents (lns : List (List Char)) (nd : List Char) :
    List (List Char × List Char) :=
  match lns with
  | [] => []
  | line :: rest =>
      match bulletOf line with
      | some ev =>
          if lexLt nd ev.1 then ev :: scanEvents rest nd
          else scanEvents rest nd
      | none => scanEvents rest nd

/-- Result of `Plenum.upcoming_events`: the Python function returns `False`
when the heading is absent, raises `ValueError` when `list.index` fails, and
otherwise returns the event list. -/
inductive UEResult where
  | noSection : UEResult
  | raised : UEResult
  | events : List (String × String) → UEResult
deriving DecidableEq, Repr

/-- `Plenum.upcoming_events` on character lists; `nd` stands for
`self.next_date.strftime("%Y-%m-%d")`. -/
def upcomingEventsL (page nd : List Char) : UEResult :=
  match termineGroup page with
  | none => UEResult.noSection
  | some g =>
      match idxOfP (fun line => decide (line = stripNlL g))
          (splitlinesGo page []) with
      | none => UEResult.raised
      | some i =>
          UEResult.events
            ((scanEvents ((splitlinesGo page []).drop (i + 1)) nd).map
              fun ev => (String.mk ev.1, String.mk ev.2))

/-- `Plenum.upcoming_events`. -/
def upcoming_events (page nd : String) : UEResult :=
  upcomingEventsL page.data nd.data

/-- The line index the heading lookup resolves to, when it succeeds. -/
def upcomingEventsIdx (page : List Char) : Option Nat :=
  match termineGroup page with
  | none => none
  | some g => idxOfP (fun line => decide (line = stripNlL g)) (splitlinesGo page [])

/-! ### `Plenum.generate_page_next_plenum` (content assembly) -/

/-- One appended block:
`"\n".join([f"===== {h} =====", body.strip("\n"), "\n"])`. -/
def renderBlock (h b : List Char) : List Char :=
  (("===== ").data ++ h ++ (" =====").data) ++ '\n' :: (stripNlL b ++ ['\n', '\n'])

/-- The content loop of `generate_page_next_plenum`: append every block
except those headed exactly `Termine`. -/
def renderLoop : List (List Char × List Char) → List Char
  | [] => []
  | sec :: rest =>
      if sec.1 = ("Termine").data then renderLoop rest
      else renderBlock sec.1 sec.2 ++ renderLoop rest

/-- The same rendering without the `Termine` filter. -/
def renderAll : List (List Char × List Char) → List Char
  | [] => []
  | sec :: rest => renderBlock sec.1 sec.2 ++ renderAll rest

/-- The `content` value `generate_page_next_plenum` substitutes into the
plenum template, on character lists. -/
def generateContentL (tplBlank page : List Char) : List Char :=
  if lastPlenumTookPlaceL page then tplBlank
  else pyStripWsL (renderLoop (extractContentL page))

/-- The `content` value `generate_page_next_plenum` substitutes into the
plenum template. -/
def generate_content (tplBlank page : String) : String :=
  String.mk (generateContentL tplBlank.data page.data)

/-! ### `Plenum.update_index_page` and `Plenum.plenum_in_list` -/

/-- The fixed protocols heading line. -/
def protokolleLine : String := "====== Protokolle ======"

/-- `f"===== {year} ====="`. -/
def yearHeading (year : Nat) : String := "===== " ++ toString year ++ " ====="

/-- `f"  * [[{next_page}]]"`. -/
def bulletLine (pid : String) : String := "  * [[" ++ pid ++ "]]"

/-- `Plenum.update_index_page` on the line list. -/
def updateIndexLines (l : List String) (year : Nat) (pid : String) :
    List String :=
  match idxOfP (fun line => decide (line = yearHeading year)) l with
  | some yi => pyInsert (yi + 1) (bulletLine pid) l
  | none =>
      let protocolIndex :=
        match idxOfP (fun line => decide (line = protokolleLine)) l with
        | some pi => pi + 1
        | none => 0
      pyInsert (protocolIndex + 2) (bulletLine pid)
        (pyInsert protocolIndex (yearHeading year) l)

/-- `Plenum.update_index_page`. -/
def update_index_page (s : String) (year : Nat) (pid : String) : String :=
  joinLines (updateIndexLines (pySplitlines s) year pid)

/-- `Plenum.plenum_in_list`: substring containment test. -/
def plenum_in_list (page pid : String) : Bool :=
  containsSub pid.data page.data

/-! ### Helper lemmas -/

theorem length_pyInsert {α : Type} (n : Nat) (x : α) (l : List α) :
    (pyInsert n x l).length = l.length + 1 := by
  simp only [pyInsert, List.length_append, List.length_take, List.length_cons,
    List.length_drop]
  omega

theorem sublist_pyInsert {α : Type} (n : Nat) (x : α) (l : List α) :
    List.Sublist l (pyInsert n x l) := by
  conv_lhs => rw [← List.take_append_drop n l]
  exact (List.Sublist.refl _).append (List.sublist_cons_self _ _)

theorem idxOfP_bound {α : Type} (p : α → Bool) (l : List α) (i : Nat)
    (h : idxOfP p l = some i) : i < l.length := by
  induction l generalizing i with
  | nil => simp [idxOfP] at h
  | cons a as ih =>
      by_cases hp : p a
      · simp [idxOfP, hp] at h
        simp only [List.length_cons]
        omega
      · simp [idxOfP, hp] at h
        obtain ⟨j, hj, rfl⟩ := h
        have := ih j hj
        simp only [List.length_cons]
        omega

theorem idxOfP_getD {α : Type} (p : α → Bool) (l : List α) (i : Nat) (d : α)
    (h : idxOfP p l = some i) : p (l.getD i d) = true := by
  induction l generalizing i with
  | nil => simp [idxOfP] at h
  | cons a as ih =>
      by_cases hp : p a
      · simp [idxOfP, hp] at h
        subst h
        simpa using hp
      · simp [idxOfP, hp] at h
        obtain ⟨j, hj, rfl⟩ := h
        simpa using ih j hj

theorem getD_take {α : Type} (l : List α) (n i : Nat) (d : α) (h : i < n) :
    (l.take n).getD i d = l.getD i d := by
  induction l generalizing n i with
  | nil => simp
  | cons a as ih =>
      cases n with
      | zero => omega
      | succ n =>
          cases i with
          | zero => simp
          | succ i => simpa using ih n i (by omega)

theorem getD_drop {α : Type} (l : List α) (n i : Nat) (d : α) :
    (l.drop n).getD i d = l.getD (n + i) d := by
  induction l generalizing n with
  | nil => simp
  | cons a as ih =>
      cases n with
      | zero => simp
      | succ n => simp [Nat.succ_add, ih n]

theorem getD_append_lt {α : Type} (l₁ l₂ : List α) (i : Nat) (d : α)
    (h : i < l₁.length) : (l₁ ++ l₂).getD i d = l₁.getD i d := by
  induction l₁ generalizing i with
  | nil => simp at h
  | cons a as ih =>
      cases i with
      | zero => simp
      | succ i => simpa using ih i (by simpa using Nat.lt_of_succ_lt_succ h)

theorem getD_append_ge {α : Type} (l₁ l₂ : List α) (i : Nat) (d : α)
    (h : l₁.length ≤ i) : (l₁ ++ l₂).getD i d = l₂.getD (i - l₁.length) d := by
  induction l₁ generalizing i with
  | nil => simp
  | cons a as ih =>
      cases i with
      | zero => simp at h
      | succ i => simpa using ih i (by simpa using Nat.le_of_succ_le_succ h)

theorem pyInsert_getD_lt {α : Type} (n i : Nat) (x : α) (l : List α) (d : α)
    (hi : i < n) (hn : n ≤ l.length) :
    (pyInsert n x l).getD i d = l.getD i d := by
  unfold pyInsert
  rw [getD_append_lt _ _ _ _ (by simp; omega), getD_take _ _ _ _ hi]

theorem pyInsert_getD_self {α : Type} (n : Nat) (x : α) (l : List α) (d : α)
    (hn : n ≤ l.length) : (pyInsert n x l).getD n d = x := by
  unfold pyInsert
  rw [getD_append_ge _ _ _ _ (by simp)]
  simp [Nat.min_eq_left hn]

theorem pyInsert_getD_succ {α : Type} (n i : Nat) (x : α) (l : List α) (d : α)
    (hn : n ≤ i) (hl : n ≤ l.length) :
    (pyInsert n x l).getD (i + 1) d = l.getD i d := by
  unfold pyInsert
  rw [getD_append_ge _ _ _ _ (by simp; omega)]
  have hlen : (l.take n).length = n := by simp [Nat.min_eq_left hl]
  rw [hlen]
  have : i + 1 - n = (i - n) + 1 := by omega
  rw [this]
  simp only [List.getD_cons_succ]
  rw [getD_drop]
  congr 1
  omega

theorem mem_pyInsert {α : Type} (n : Nat) (x : α) (l : List α) :
    x ∈ pyInsert n x l := by
  unfold pyInsert
  exact List.mem_append_right _ (List.mem_cons_self _ _)

theorem subSeg_trans {α : Type} {a b c : List α} (h1 : subSeg a b)
    (h2 : subSeg b c) : subSeg a c := by
  obtain ⟨u1, v1, rfl⟩ := h1
  obtain ⟨u2, v2, rfl⟩ := h2
  exact ⟨u2 ++ u1, v1 ++ v2, by simp [List.append_assoc]⟩

theorem startsWithL_iff (n h : List Char) :
    startsWithL n h = true ↔ ∃ t, n ++ t = h := by
  induction n generalizing h with
  | nil => simp [startsWithL]
  | cons a as ih =>
      cases h with
      | nil => simp [startsWithL]
      | cons b bs => simp [startsWithL, ih, List.cons_eq_cons, and_assoc]

theorem containsSub_iff (n h : List Char) :
    containsSub n h = true ↔ subSeg n h := by
  unfold containsSub subSeg
  rw [List.any_eq_true]
  constructor
  · rintro ⟨i, _, hsw⟩
    obtain ⟨t, ht⟩ := (startsWithL_iff _ _).mp hsw
    exact ⟨h.take i, t, by rw [List.append_assoc, ht, List.take_append_drop]⟩
  · rintro ⟨u, v, rfl⟩
    refine ⟨u.length, List.mem_range.mpr (by simp; omega), ?_⟩
    rw [startsWithL_iff]
    exact ⟨v, by rw [List.append_assoc, List.drop_left]⟩

theorem subSeg_joinNL {x : List Char} {ll : List (List Char)} (h : x ∈ ll) :
    subSeg x (joinNL ll) := by
  induction ll with
  | nil => simp at h
  | cons y rest ih =>
      cases rest with
      | nil =>
          simp at h
          subst h
          exact ⟨[], [], by simp [joinNL]⟩
      | cons z rest2 =>
          rcases List.mem_cons.mp h with rfl | hmem
          · exact ⟨[], '\n' :: joinNL (z :: rest2), by simp [joinNL]⟩
          · obtain ⟨u, v, huv⟩ := ih hmem
            exact ⟨y ++ '\n' :: u, v, by
              simp only [joinNL, ← huv, List.append_assoc, List.cons_append]⟩

/-! ### Claim theorems -/

/-- C2: for every date `d` and target weekday `w` in 0..6, the next date has
weekday `w` and lies 1 to 7 days strictly after `d`; the last date has
weekday `w` and lies at most 7 days before (or equal to) `d`; and when `d`
itself falls on weekday `w`, the next date is `d + 7` while the last date is
`d` itself. -/
theorem c2_compute_window (d w : Int) (hw0 : 0 ≤ w) (hw7 : w < 7) :
    pyWeekday (calc_next_date w d) = w ∧
    d + 1 ≤ calc_next_date w d ∧ calc_next_date w d ≤ d + 7 ∧
    pyWeekday (calc_last_date w d) = w ∧
    d - 7 ≤ calc_last_date w d ∧ calc_last_date w d ≤ d ∧
    (pyWeekday d = w → calc_next_date w d = d + 7 ∧ calc_last_date w d = d) := by
  unfold calc_next_date calc_last_date pyWeekday
  split <;> split <;> omega

/-- C2 witness: concrete evaluation at ordinal 738885 (a Tuesday) with target
weekday 2 (Tuesday). -/
theorem c2_compute_window_witness :
    pyWeekday (calc_next_date 2 738885) = 2 ∧
    738885 + 1 ≤ calc_next_date 2 738885 ∧ calc_next_date 2 738885 ≤ 738885 + 7 ∧
    pyWeekday (calc_last_date 2 738885) = 2 ∧
    738885 - 7 ≤ calc_last_date 2 738885 ∧ calc_last_date 2 738885 ≤ 738885 ∧
    (pyWeekday 738885 = 2 → calc_next_date 2 738885 = 738885 + 7 ∧
      calc_last_date 2 738885 = 738885) :=
  c2_compute_window 738885 2 (by decide) (by decide)

/-- C9: the computed next date is always exactly 7 days after the computed
last date, in both adjustment branches and for any `dow` value. -/
theorem c9_week_delta (dow today : Int) :
    calc_next_date dow today = calc_last_date dow today + 7 := by
  unfold calc_next_date calc_last_date
  split <;> split <;> omega

/-- C1: `extract_content` does NOT return, as section bodies, all lines
strictly between a heading and the next recorded boundary: on a document
with sections `A` (body lines `x`, `y`) and `B` (body line `z`) it drops
the line before the second heading and the final line, returning body `"x"`
for `A` and body `""` for `B`, so the concatenation cannot reconstruct the
document. -/
theorem c1_extract_content_eval :
    extract_content ("===== A =====\nx\ny\n===== B =====\nz") =
      [("A", "x"), ("B", "")] ∧
    extract_content ("===== A =====\nx\ny\n===== B =====\nz") ≠
      [("A", "x\ny"), ("B", "z")] := by
  decide

/-- C7: `upcoming_events` raises (uncaught `ValueError` from `list.index`)
on a document that does contain a `===== Termine =====` heading line but
whose preceding line is whitespace-only: the regex match absorbs that line,
so the stripped group is not equal to any document line. -/
theorem c7_upcoming_events_raises :
    upcoming_events (" \n===== Termine =====\n  * 2099-01-01 x")
        ("2024-06-10") = UEResult.raised ∧
    (pySplitlines (" \n===== Termine =====\n  * 2099-01-01 x")).getD 1
        emptyStr = "===== Termine =====" := by
  decide

/-- C8 counterexample: a document consisting of a single heading line has
one heading line but `extract_content` returns two sections (the synthetic
terminal boundary duplicates the final heading index and `list.index`
resolves both copies to the first occurrence). -/
theorem c8_counterexample :
    headingLineCount ("===== A =====") = 1 ∧
    (extract_content ("===== A =====")).length = 2 := by
  decide

/-- C5 counterexample: when the index consists of the `Protokolle` line
alone, the bullet ends up directly under the inserted year heading (one
line below it, at position 2), not two lines below, because `list.insert`
clamps the out-of-range position 3. -/
theorem c5_counterexample :
    pySplitlines (protokolleLine) = [protokolleLine] ∧
    updateIndexLines (pySplitlines (protokolleLine)) 2024
        ("team:2024-06-17") =
      [protokolleLine, yearHeading 2024, bulletLine ("team:2024-06-17")] := by
  decide

/-- C6 counterexample: on a document whose last two lines are `"Ende:"` and
`"12:34 Uhr"` the function returns `true` although no single line of the
fragment consists of the `Ende: HH:MM Uhr` pattern — the `\s*` of the
pattern crosses the joining newline. -/
theorem c6_counterexample :
    last_plenum_took_place ("Ende:\n12:34 Uhr") = true ∧
    (splitlinesGo ("Ende:\n12:34 Uhr").data []).all
      (fun l => !(matchEndeCore (l.map Char.toLower))) = true := by
  decide

/-- C10: `update_index_page` keeps every input line unchanged and in order
(the input lines form a sublist of the output lines) and adds exactly one
line when the exact year heading line is present, exactly two otherwise. -/
theorem c10_index_frame (s : String) (year : Nat) (pid : String) :
    List.Sublist (pySplitlines s) (updateIndexLines (pySplitlines s) year pid) ∧
    (updateIndexLines (pySplitlines s) year pid).length =
      (pySplitlines s).length +
        (match idxOfP (fun line => decide (line = yearHeading year))
            (pySplitlines s) with
         | some _ => 1
         | none => 2) := by
  cases h : idxOfP (fun line => decide (line = yearHeading year))
      (pySplitlines s) with
  | some yi =>
      refine ⟨?_, ?_⟩
      · simp only [updateIndexLines, h]
        exact sublist_pyInsert _ _ _
      · simp only [updateIndexLines, h, length_pyInsert]
  | none =>
      refine ⟨?_, ?_⟩
      · simp only [updateIndexLines, h]
        exact (sublist_pyInsert _ _ _).trans (sublist_pyInsert _ _ _)
      · simp only [updateIndexLines, h, length_pyInsert]

/-- C5: on an index containing the exact `Protokolle` line (at line `q`),
no year heading line, and at least one line after the `Protokolle` line,
`update_index_page` keeps `Protokolle` at `q`, puts the new year heading
directly under it (at `q + 1`), puts the bullet link two lines below the
inserted heading (at `q + 3`), and the resulting text makes
`plenum_in_list` true, so a repeated run would skip the second index
write. -/
theorem c5_update_index (s : String) (year : Nat) (pid : String) (q : Nat)
    (hYear : idxOfP (fun line => decide (line = yearHeading year))
      (pySplitlines s) = none)
    (hProt : idxOfP (fun line => decide (line = protokolleLine))
      (pySplitlines s) = some q)
    (hRoom : q + 2 ≤ (pySplitlines s).length) :
    (updateIndexLines (pySplitlines s) year pid).getD q emptyStr =
      protokolleLine ∧
    (updateIndexLines (pySplitlines s) year pid).getD (q + 1) emptyStr =
      yearHeading year ∧
    (updateIndexLines (pySplitlines s) year pid).getD (q + 3) emptyStr =
      bulletLine pid ∧
    plenum_in_list (update_index_page s year pid) pid = true := by
  have hq : q < (pySplitlines s).length := idxOfP_bound _ _ _ hProt
  have hres : updateIndexLines (pySplitlines s) year pid =
      pyInsert (q + 3) (bulletLine pid)
        (pyInsert (q + 1) (yearHeading year) (pySplitlines s)) := by
    simp only [updateIndexLines, hYear, hProt]
  have hlen1 : (pyInsert (q + 1) (yearHeading year) (pySplitlines s)).length =
      (pySplitlines s).length + 1 := length_pyInsert _ _ _
  refine ⟨?_, ?_, ?_, ?_⟩
  · rw [hres, pyInsert_getD_lt _ _ _ _ _ (by omega) (by omega),
      pyInsert_getD_lt _ _ _ _ _ (by omega) (by omega)]
    have := idxOfP_getD _ _ _ emptyStr hProt
    exact of_decide_eq_true this
  · rw [hres, pyInsert_getD_lt _ _ _ _ _ (by omega) (by omega),
      pyInsert_getD_self _ _ _ _ (by omega)]
  · rw [hres, pyInsert_getD_self _ _ _ _ (by omega)]
  · unfold plenum_in_list update_index_page
    rw [containsSub_iff]
    have h1 : subSeg pid.data (bulletLine pid).data :=
      ⟨("  * [[").data, ("]]").data, by
        simp only [bulletLine, String.data_append]⟩
    have h2 : bulletLine pid ∈ updateIndexLines (pySplitlines s) year pid := by
      rw [hres]
      exact mem_pyInsert _ _ _
    have h3 : (bulletLine pid).data ∈
        (updateIndexLines (pySplitlines s) year pid).map (fun t => t.data) :=
      List.mem_map_of_mem _ h2
    exact subSeg_trans h1 (subSeg_joinNL h3)

/-- C5 witness: concrete run on a two-line index whose first line is the
`Protokolle` heading. -/
theorem c5_update_index_witness :
    (updateIndexLines
        (pySplitlines ("====== Protokolle ======\n  * [[team:2023-12-25]]"))
        2024 ("team:2024-06-17")).getD 0 emptyStr = protokolleLine ∧
    (updateIndexLines
        (pySplitlines ("====== Protokolle ======\n  * [[team:2023-12-25]]"))
        2024 ("team:2024-06-17")).getD (0 + 1) emptyStr = yearHeading 2024 ∧
    (updateIndexLines
        (pySplitlines ("====== Protokolle ======\n  * [[team:2023-12-25]]"))
        2024 ("team:2024-06-17")).getD (0 + 3) emptyStr =
      bulletLine ("team:2024-06-17") ∧
    plenum_in_list
      (update_index_page ("====== Protokolle ======\n  * [[team:2023-12-25]]")
        2024 ("team:2024-06-17")) ("team:2024-06-17") = true :=
  c5_update_index ("====== Protokolle ======\n  * [[team:2023-12-25]]") 2024
    ("team:2024-06-17") 0 (by decide) (by decide) (by decide)

theorem scanEvents_eq (lns : List (List Char)) (nd : List Char) :
    scanEvents lns nd =
      (lns.filterMap bulletOf).filter fun ev => lexLt nd ev.1 := by
  induction lns with
  | nil => rfl
  | cons line rest ih =>
      cases hb : bulletOf line with
      | none => simp [scanEvents, hb, ih]
      | some ev =>
          cases hlt : lexLt nd ev.1 with
          | true => simp [scanEvents, hb, hlt, ih]
          | false => simp [scanEvents, hb, hlt, ih]

/-- C3 counterexample: a document that contains the `===== Termine =====`
heading as a line and a qualifying future bullet, on which `upcoming_events`
raises instead of returning that bullet entry (the whitespace-only first
line is absorbed into the regex match). -/
theorem c3_counterexample :
    upcoming_events (" \n===== Termine =====\n  * 2099-01-01 x")
      ("2024-06-10") = UEResult.raised ∧
    upcoming_events (" \n===== Termine =====\n  * 2099-01-01 x")
      ("2024-06-10") ≠ UEResult.events [("2099-01-01", " x")] := by
  decide

/-- C3 (amended): whenever the internal heading lookup succeeds — the
leftmost regex match for the `Termine` heading, stripped of newlines, occurs
as a document line, say line `i` — `upcoming_events` returns exactly the
bullet entries (2–4 leading spaces, `* `, ISO date, trailing description) of
the lines after `i` whose date string is lexicographically strictly greater
than `next_date`, in document order, at most one entry per line. -/
theorem c3_upcoming_events_filter (page nd : String) (i : Nat)
    (h : upcomingEventsIdx page.data = some i) :
    upcoming_events page nd = UEResult.events
      (((((splitlinesGo page.data []).drop (i + 1)).filterMap bulletOf).filter
          fun ev => lexLt nd.data ev.1).map
        fun ev => (String.mk ev.1, String.mk ev.2)) := by
  unfold upcoming_events upcomingEventsL
  unfold upcomingEventsIdx at h
  cases hg : termineGroup page.data with
  | none =>
      simp only [hg] at h
      exact Option.noConfusion h
  | some g =>
      simp only [hg] at h ⊢
      simp only [h, scanEvents_eq]

/-- C3 witness: the spec's own example document and date. -/
theorem c3_upcoming_events_filter_witness :
    upcoming_events
        ("===== Termine =====\n  * 2024-06-03 a\n  * 2024-06-17 b\n  * 2024-07-01 c")
        ("2024-06-10") =
      UEResult.events [("2024-06-17", " b"), ("2024-07-01", " c")] :=
  (c3_upcoming_events_filter
      ("===== Termine =====\n  * 2024-06-03 a\n  * 2024-06-17 b\n  * 2024-07-01 c")
      ("2024-06-10") 0 (by decide)).trans (by decide)

theorem length_filterMap_of_isSome {α β : Type} (f : α → Option β)
    (l : List α) (h : ∀ x ∈ l, (f x).isSome = true) :
    (l.filterMap f).length = l.length := by
  induction l with
  | nil => rfl
  | cons a as ih =>
      cases hf : f a with
      | none =>
          have := h a (List.mem_cons_self _ _)
          rw [hf] at this
          simp at this
      | some b =>
          simp [List.filterMap_cons, hf,
            ih fun x hx => h x (List.mem_cons_of_mem _ hx)]

theorem pyListIdx_append_of_mem {α : Type} [DecidableEq α] {x : α}
    {ys : List α} (zs : List α) (h : x ∈ ys) :
    pyListIdx (fun y => decide (y = x)) (ys ++ zs) =
      pyListIdx (fun y => decide (y = x)) ys := by
  induction ys with
  | nil => simp at h
  | cons a as ih =>
      by_cases ha : a = x
      · simp [pyListIdx, ha]
      · rcases List.mem_cons.mp h with rfl | hmem
        · exact absurd rfl ha
        · simp [pyListIdx, ha, ih hmem]

theorem pyListIdx_lt_of_mem {α : Type} [DecidableEq α] {x : α}
    {ys : List α} (h : x ∈ ys) :
    pyListIdx (fun y => decide (y = x)) ys < ys.length := by
  induction ys with
  | nil => simp at h
  | cons a as ih =>
      by_cases ha : a = x
      · simp [pyListIdx, ha]
      · rcases List.mem_cons.mp h with rfl | hmem
        · exact absurd rfl ha
        · simp only [pyListIdx, List.length_cons]
          rw [if_neg (by simp [ha])]
          have := ih hmem
          omega

theorem pyListIdx_append_of_not_mem {α : Type} [DecidableEq α] {x : α}
    {ys : List α} (zs : List α) (h : x ∉ ys) :
    pyListIdx (fun y => decide (y = x)) (ys ++ zs) =
      ys.length + pyListIdx (fun y => decide (y = x)) zs := by
  induction ys with
  | nil => simp
  | cons a as ih =>
      have ha : ¬(a = x) := fun he => h (he ▸ List.mem_cons_self _ _)
      have hih := ih fun hm => h (List.mem_cons_of_mem _ hm)
      simp only [List.cons_append, pyListIdx, List.length_cons]
      rw [if_neg (by simp [ha]), List.append_eq, hih]
      omega

theorem sectionBounds_singleton (z : Int) : sectionBounds [z] = [] := by
  simp [sectionBounds, pyListIdx]

theorem sectionBounds_length_of_nodup (ys : List Int) (z : Int)
    (hnd : (ys ++ [z]).Nodup) :
    (sectionBounds (ys ++ [z])).length = ys.length := by
  have hzys : z ∉ ys := by
    intro hz
    rw [List.nodup_append] at hnd
    exact hnd.2.2 hz (List.mem_singleton.mpr rfl)
  unfold sectionBounds
  rw [List.filterMap_append, List.length_append]
  have hlast : (ys ++ [z]).length - 1 = ys.length := by simp
  have h1 : (List.filterMap (fun idx =>
      if pyListIdx (fun x => decide (x = idx)) (ys ++ [z]) =
          (ys ++ [z]).length - 1 then none
      else some (idx, (ys ++ [z]).getD
        (pyListIdx (fun x => decide (x = idx)) (ys ++ [z]) + 1) 0 - 1)) ys).length
      = ys.length := by
    apply length_filterMap_of_isSome
    intro x hx
    have hidx : pyListIdx (fun y => decide (y = x)) (ys ++ [z]) =
        pyListIdx (fun y => decide (y = x)) ys := pyListIdx_append_of_mem _ hx
    have hlt : pyListIdx (fun y => decide (y = x)) ys < ys.length :=
      pyListIdx_lt_of_mem hx
    rw [if_neg (by rw [hidx, hlast]; omega)]
    rfl
  have h2 : (List.filterMap (fun idx =>
      if pyListIdx (fun x => decide (x = idx)) (ys ++ [z]) =
          (ys ++ [z]).length - 1 then none
      else some (idx, (ys ++ [z]).getD
        (pyListIdx (fun x => decide (x = idx)) (ys ++ [z]) + 1) 0 - 1)) [z]).length
      = 0 := by
    have hidx : pyListIdx (fun y => decide (y = z)) (ys ++ [z]) = ys.length := by
      rw [pyListIdx_append_of_not_mem _ hzys]
      simp [pyListIdx]
    simp [List.filterMap_cons, hidx, hlast]
  rw [h1, h2]
  omega

theorem sectionBounds_length_of_last_mem (ys : List Int) (z : Int)
    (hz : z ∈ ys) :
    (sectionBounds (ys ++ [z])).length = ys.length + 1 := by
  unfold sectionBounds
  have hlast : (ys ++ [z]).length - 1 = ys.length := by simp
  have hall : (List.filterMap (fun idx =>
      if pyListIdx (fun x => decide (x = idx)) (ys ++ [z]) =
          (ys ++ [z]).length - 1 then none
      else some (idx, (ys ++ [z]).getD
        (pyListIdx (fun x => decide (x = idx)) (ys ++ [z]) + 1) 0 - 1))
      (ys ++ [z])).length = (ys ++ [z]).length := by
    apply length_filterMap_of_isSome
    intro x hx
    have hxys : x ∈ ys := by
      rcases List.mem_append.mp hx with hm | hm
      · exact hm
      · rw [List.mem_singleton.mp hm]; exact hz
    have hidx : pyListIdx (fun y => decide (y = x)) (ys ++ [z]) =
        pyListIdx (fun y => decide (y = x)) ys := pyListIdx_append_of_mem _ hxys
    have hlt : pyListIdx (fun y => decide (y = x)) ys < ys.length :=
      pyListIdx_lt_of_mem hxys
    rw [if_neg (by rw [hidx, hlast]; omega)]
    rfl
  rw [hall]
  simp

theorem headingIdxList_nodup (pl : List (List Char)) :
    (headingIdxList pl).Nodup := by
  unfold headingIdxList
  apply List.Nodup.filterMap ?_ (List.nodup_range _)
  intro a a' b hb hb'
  by_cases hc : isHeadingLineL (pl.getD a []) = true
  · rw [if_pos hc] at hb
    by_cases hc' : isHeadingLineL (pl.getD a' []) = true
    · rw [if_pos hc'] at hb'
      have h1 : (a : Int) = b := by simpa using hb
      have h2 : (a' : Int) = b := by simpa using hb'
      omega
    · rw [if_neg hc'] at hb'
      simp at hb'
  · rw [if_neg hc] at hb
    simp at hb

theorem mem_headingIdxList (pl : List (List Char)) (v : Int) :
    v ∈ headingIdxList pl ↔
      ∃ i : Nat, i < pl.length ∧ isHeadingLineL (pl.getD i []) = true ∧
        (i : Int) = v := by
  unfold headingIdxList
  rw [List.mem_filterMap]
  constructor
  · rintro ⟨i, hir, hv⟩
    rw [List.mem_range] at hir
    by_cases hc : isHeadingLineL (pl.getD i []) = true
    · rw [if_pos hc] at hv
      exact ⟨i, hir, hc, Option.some_inj.mp hv⟩
    · rw [if_neg hc] at hv
      exact Option.noConfusion hv
  · rintro ⟨i, hlt, hc, rfl⟩
    exact ⟨i, List.mem_range.mpr hlt, by rw [if_pos hc]⟩

theorem getLast?_eq_getD (pl : List (List Char)) (h : pl ≠ []) :
    pl.getLast? = some (pl.getD (pl.length - 1) []) := by
  induction pl with
  | nil => exact absurd rfl h
  | cons a as ih =>
      cases as with
      | nil => rfl
      | cons b rest =>
          rw [List.getLast?_cons_cons, ih (by simp)]
          congr 1

/-- C8 (amended): `extract_content` returns the empty sequence on a document
with zero heading lines; on a document with `k` heading lines it returns
exactly `k` sections when the final line is not itself a heading line, and
`k + 1` sections when it is (the synthetic terminal boundary then duplicates
the final heading index). -/
theorem c8_section_count (page : String) :
    (headingLineCount page = 0 → extract_content page = []) ∧
    (lastLineIsHeading page = false →
      (extract_content page).length = headingLineCount page) ∧
    (lastLineIsHeading page = true →
      (extract_content page).length = headingLineCount page + 1) := by
  refine ⟨?_, ?_, ?_⟩
  · intro h0
    unfold headingLineCount at h0
    have hnil := List.length_eq_zero.mp h0
    simp only [extract_content, extractContentL, hnil, List.nil_append,
      sectionBounds_singleton, List.map_nil]
  · intro hLast
    by_cases hpl : splitlinesGo page.data [] = []
    · have hnil : headingIdxList (splitlinesGo page.data []) = [] := by
        rw [hpl]; rfl
      simp only [extract_content, extractContentL, headingLineCount, hnil,
        List.nil_append, sectionBounds_singleton, List.map_nil,
        List.length_nil]
    · have hlen1 : 0 < (splitlinesGo page.data []).length :=
        List.length_pos.mpr hpl
      have hnotHead : isHeadingLineL ((splitlinesGo page.data []).getD
          ((splitlinesGo page.data []).length - 1) []) = false := by
        simp only [lastLineIsHeading, getLast?_eq_getD _ hpl] at hLast
        exact hLast
      have hznot : ((splitlinesGo page.data []).length : Int) - 1 ∉
          headingIdxList (splitlinesGo page.data []) := by
        intro hmem
        obtain ⟨i, hi, hc, hv⟩ := (mem_headingIdxList _ _).mp hmem
        have hieq : i = (splitlinesGo page.data []).length - 1 := by omega
        rw [hieq] at hc
        rw [hnotHead] at hc
        exact Bool.noConfusion hc
      have hnd : (headingIdxList (splitlinesGo page.data []) ++
          [((splitlinesGo page.data []).length : Int) - 1]).Nodup := by
        rw [List.nodup_append]
        exact ⟨headingIdxList_nodup _, List.nodup_singleton _,
          fun a ha hb => hznot ((List.mem_singleton.mp hb) ▸ ha)⟩
      simp only [extract_content, extractContentL, List.length_map,
        headingLineCount]
      exact sectionBounds_length_of_nodup _ _ hnd
  · intro hLast
    have hpl : splitlinesGo page.data [] ≠ [] := by
      intro hpl
      simp only [lastLineIsHeading, hpl, List.getLast?_nil] at hLast
      exact Bool.noConfusion hLast
    have hlen1 : 0 < (splitlinesGo page.data []).length :=
      List.length_pos.mpr hpl
    have hc : isHeadingLineL ((splitlinesGo page.data []).getD
        ((splitlinesGo page.data []).length - 1) []) = true := by
      simp only [lastLineIsHeading, getLast?_eq_getD _ hpl] at hLast
      exact hLast
    have hmem : ((splitlinesGo page.data []).length : Int) - 1 ∈
        headingIdxList (splitlinesGo page.data []) := by
      refine (mem_headingIdxList _ _).mpr
        ⟨(splitlinesGo page.data []).length - 1, by omega, hc, by omega⟩
    simp only [extract_content, extractContentL, List.length_map,
      headingLineCount]
    exact sectionBounds_length_of_last_mem _ _ hmem

/-- C8 witness: zero headings give the empty sequence, one heading with a
body line gives one section, and a document whose single line is a heading
gives two sections. -/
theorem c8_section_count_witness :
    extract_content ("no headings here") = [] ∧
    (extract_content ("===== A =====\nbody")).length =
      headingLineCount ("===== A =====\nbody") ∧
    (extract_content ("===== A =====")).length =
      headingLineCount ("===== A =====") + 1 :=
  ⟨(c8_section_count ("no headings here")).1 (by decide),
   (c8_section_count ("===== A =====\nbody")).2.1 (by decide),
   (c8_section_count ("===== A =====")).2.2 (by decide)⟩

theorem renderLoop_eq (l : List (List Char × List Char)) :
    renderLoop l = renderAll (l.filter
      fun sec => !(decide (sec.1 = ("Termine").data))) := by
  induction l with
  | nil => rfl
  | cons sec rest ih =>
      by_cases hs : sec.1 = ("Termine").data
      · simp [renderLoop, List.filter_cons, hs, ih]
      · simp [renderLoop, renderAll, List.filter_cons, hs, ih]

theorem subSeg_renderAll {sec : List Char × List Char}
    {l : List (List Char × List Char)} (h : sec ∈ l) :
    subSeg (renderBlock sec.1 sec.2) (renderAll l) := by
  induction l with
  | nil => simp at h
  | cons y rest ih =>
      rcases List.mem_cons.mp h with rfl | hmem
      · exact ⟨[], renderAll rest, by simp [renderAll]⟩
      · obtain ⟨u, v, huv⟩ := ih hmem
        exact ⟨renderBlock y.1 y.2 ++ u, v, by
          simp only [renderAll, List.append_assoc, huv]⟩

theorem exists_dropWhile_append {α : Type} (p : α → Bool) (u : List α)
    (c : α) (r : List α) (hc : p c = false) :
    ∃ u2, (u ++ c :: r).dropWhile p = u2 ++ c :: r := by
  induction u with
  | nil => exact ⟨[], by simp [List.dropWhile_cons, hc]⟩
  | cons a as ih =>
      cases hpa : p a with
      | true =>
          obtain ⟨u2, hu2⟩ := ih
          exact ⟨u2, by simp [List.dropWhile_cons, hpa, hu2]⟩
      | false => exact ⟨a :: as, by simp [List.dropWhile_cons, hpa]⟩

theorem subSeg_pyStripWs {s t : List Char} (hsub : subSeg s t)
    (hhead : ∃ c r, s = c :: r ∧ pySpace c = false)
    (hlast : ∃ r c, s = r ++ [c] ∧ pySpace c = false) :
    subSeg s (pyStripWsL t) := by
  obtain ⟨u, v, rfl⟩ := hsub
  obtain ⟨c1, r1, hs1, hc1⟩ := hhead
  obtain ⟨r2, c2, hs2, hc2⟩ := hlast
  unfold pyStripWsL pyStripOn
  have step1 : ∃ u2, ((u ++ s ++ v).dropWhile pySpace) = u2 ++ s ++ v := by
    obtain ⟨u2, hu2⟩ := exists_dropWhile_append pySpace u c1 (r1 ++ v) hc1
    refine ⟨u2, ?_⟩
    rw [hs1, show u ++ (c1 :: r1) ++ v = u ++ c1 :: (r1 ++ v) by simp, hu2]
    simp
  obtain ⟨u2, hu2⟩ := step1
  rw [hu2]
  have hsrev : s.reverse = c2 :: r2.reverse := by rw [hs2]; simp
  have hrev : (u2 ++ s ++ v).reverse = v.reverse ++ s.reverse ++ u2.reverse := by
    simp [List.reverse_append, List.append_assoc]
  rw [hrev]
  have step2 : ∃ v2, ((v.reverse ++ s.reverse ++ u2.reverse).dropWhile pySpace)
      = v2 ++ s.reverse ++ u2.reverse := by
    obtain ⟨v2, hv2⟩ := exists_dropWhile_append pySpace v.reverse c2
      (r2.reverse ++ u2.reverse) hc2
    refine ⟨v2, ?_⟩
    rw [hsrev, show v.reverse ++ (c2 :: r2.reverse) ++ u2.reverse =
      v.reverse ++ c2 :: (r2.reverse ++ u2.reverse) by simp, hv2]
    simp
  obtain ⟨v2, hv2⟩ := step2
  rw [hv2]
  exact ⟨u2, v2.reverse, by simp [List.reverse_append, List.append_assoc]⟩

/-- C4: when the previous meeting concluded, the content substituted into
the plenum template is the blank template verbatim; when it did not, the
content is exactly the stripped rendering of the non-`Termine` sections (so
no `Termine` section is carried forward) and it contains the rendered
`===== H =====` block of every parsed section `H` other than `Termine`. -/
theorem c4_generate_content (tplBlank page : String) :
    (last_plenum_took_place page = true →
      generate_content tplBlank page = tplBlank) ∧
    (last_plenum_took_place page = false →
      generateContentL tplBlank.data page.data =
        pyStripWsL (renderAll ((extractContentL page.data).filter
          fun sec => !(decide (sec.1 = ("Termine").data)))) ∧
      ∀ sec ∈ extractContentL page.data, ¬(sec.1 = ("Termine").data) →
        subSeg (("===== ").data ++ sec.1 ++ (" =====").data)
          (generateContentL tplBlank.data page.data)) := by
  constructor
  · intro h
    unfold last_plenum_took_place at h
    simp only [generate_content, generateContentL, h, if_true]
  · intro h
    unfold last_plenum_took_place at h
    have hgc : generateContentL tplBlank.data page.data =
        pyStripWsL (renderLoop (extractContentL page.data)) := by
      simp only [generateContentL, h, Bool.false_eq_true, if_false]
    constructor
    · rw [hgc, renderLoop_eq]
    · intro sec hmem hne
      have h1 : subSeg (renderBlock sec.1 sec.2)
          (renderLoop (extractContentL page.data)) := by
        rw [renderLoop_eq]
        apply subSeg_renderAll
        rw [List.mem_filter]
        exact ⟨hmem, by simp [hne]⟩
      have h2 : subSeg (("===== ").data ++ sec.1 ++ (" =====").data)
          (renderBlock sec.1 sec.2) :=
        ⟨[], '\n' :: (stripNlL sec.2 ++ ['\n', '\n']), by simp [renderBlock]⟩
      rw [hgc]
      refine subSeg_pyStripWs (subSeg_trans h2 h1)
        ⟨'=', ("==== ").data ++ sec.1 ++ (" =====").data, rfl, by decide⟩
        ⟨("===== ").data ++ sec.1 ++ (" ====").data, '=', ?_, by decide⟩
      simp only [List.append_assoc]
      rfl

/-- C4 witness: a concluded page yields the blank template verbatim; a
non-concluded page with sections `Topic A` and `Termine` yields content
containing the rendered `===== Topic A =====` block and no `Termine`
occurrence at all. -/
theorem c4_generate_content_witness :
    generate_content ("BLANK") ("Ende: 18:30 Uhr") = "BLANK" ∧
    subSeg (("===== ").data ++ ("Topic A").data ++ (" =====").data)
      (generateContentL ("BLANK").data
        ("===== Topic A =====\nstuff\n\n===== Termine =====\n  * 2030-01-01 x\n").data) ∧
    containsSub (("Termine").data)
      (generate_content ("BLANK")
        ("===== Topic A =====\nstuff\n\n===== Termine =====\n  * 2030-01-01 x\n")).data
      = false :=
  ⟨(c4_generate_content ("BLANK") ("Ende: 18:30 Uhr")).1 (by decide),
   ((c4_generate_content ("BLANK")
        ("===== Topic A =====\nstuff\n\n===== Termine =====\n  * 2030-01-01 x\n")).2
      (by decide)).2 ((("Topic A").data, ("stuff").data)) (by decide) (by decide),
   by decide⟩

theorem pySpace_false_of_digit {c : Char} (h : pyDigit c = true) :
    pySpace c = false := by
  unfold pyDigit at h
  unfold pySpace
  simp only [Bool.and_eq_true, decide_eq_true_eq] at h
  simp only [Bool.or_eq_false_iff, decide_eq_false_iff_not]
  omega

theorem takeWhile_append_of_all {α : Type} (p : α → Bool) (u l : List α)
    (h : ∀ x ∈ u, p x = true) :
    (u ++ l).takeWhile p = u ++ l.takeWhile p := by
  induction u with
  | nil => simp
  | cons a as ih =>
      simp only [List.cons_append, List.takeWhile_cons,
        h a (List.mem_cons_self _ _),
        ih fun x hx => h x (List.mem_cons_of_mem _ hx), if_true]

theorem dropWhile_append_of_all {α : Type} (p : α → Bool) (u l : List α)
    (h : ∀ x ∈ u, p x = true) :
    (u ++ l).dropWhile p = l.dropWhile p := by
  induction u with
  | nil => simp
  | cons a as ih =>
      simp only [List.cons_append, List.dropWhile_cons,
        h a (List.mem_cons_self _ _), if_true]
      exact ih fun x hx => h x (List.mem_cons_of_mem _ hx)

theorem endeTailCheck_iff (c : List Char) :
    endeTailCheck c = true ↔ EndeTailOK c := by
  unfold endeTailCheck EndeTailOK
  rw [Bool.or_eq_true, List.all_eq_true, List.any_eq_true]
  constructor
  · rintro (hall | ⟨x, hx, hbeq⟩)
    · exact Or.inl hall
    · right
      have hxn : x = '\n' := by simpa using hbeq
      subst hxn
      obtain ⟨w1, w2, hw⟩ := List.append_of_mem hx
      refine ⟨w1, w2 ++ c.dropWhile pySpace, ?_, ?_⟩
      · conv_lhs => rw [← List.takeWhile_append_dropWhile (p := pySpace) (l := c)]
        rw [hw]
        simp [List.append_assoc]
      · intro y hy
        have hmem : y ∈ c.takeWhile pySpace := by
          rw [hw]
          exact List.mem_append_left _ hy
        exact List.mem_takeWhile_imp hmem
  · rintro (hall | ⟨c1, c2, rfl, hws⟩)
    · exact Or.inl hall
    · right
      refine ⟨'\n', ?_, by simp⟩
      rw [takeWhile_append_of_all _ _ _ hws]
      apply List.mem_append_right
      rw [List.takeWhile_cons]
      simp [show pySpace '\n' = true from by decide]

theorem matchEndeCore_iff (m : List Char) :
    matchEndeCore m = true ↔ EndeMatchLow m := by
  constructor
  · intro h
    unfold matchEndeCore at h
    split at h
    · rename_i h5
      split at h
      · rename_i d1 d2 cc d3 d4 rest heq
        split at h
        · rename_i hdig
          split at h
          · rename_i huhr
            simp only [Bool.and_eq_true, beq_iff_eq] at hdig
            obtain ⟨⟨⟨⟨hd1, hd2⟩, hcc⟩, hd3⟩, hd4⟩ := hdig
            subst hcc
            refine ⟨(m.drop 5).takeWhile pySpace, d1, d2, d3, d4,
              rest.takeWhile pySpace, (rest.dropWhile pySpace).drop 3,
              ?_, fun x hx => List.mem_takeWhile_imp hx, hd1, hd2, hd3, hd4,
              fun x hx => List.mem_takeWhile_imp hx,
              (endeTailCheck_iff _).mp h⟩
            have hdrop : m.drop 5 = (m.drop 5).takeWhile pySpace ++
                d1 :: d2 :: ':' :: d3 :: d4 :: rest := by
              conv_lhs => rw [← List.takeWhile_append_dropWhile pySpace
                (m.drop 5)]
              rw [heq]
            have hrest : rest = rest.takeWhile pySpace ++
                (("uhr").data ++ (rest.dropWhile pySpace).drop 3) := by
              conv_lhs => rw [← List.takeWhile_append_dropWhile pySpace rest]
              congr 1
              conv_lhs => rw [← List.take_append_drop 3
                (rest.dropWhile pySpace)]
              rw [huhr]
            conv_lhs => rw [← List.take_append_drop 5 m, h5, hdrop, hrest]
            simp [List.append_assoc]
          · exact Bool.noConfusion h
        · exact Bool.noConfusion h
      · exact Bool.noConfusion h
    · exact Bool.noConfusion h
  · rintro ⟨a, d1, d2, d3, d4, b, c, rfl, hwa, hd1, hd2, hd3, hd4, hwb, htail⟩
    unfold matchEndeCore
    have h5 : (("ende:").data ++ a ++ [d1, d2, ':', d3, d4] ++ b ++
        ("uhr").data ++ c).take 5 = ("ende:").data := by
      simp only [List.append_assoc]
      exact List.take_left' (by decide)
    rw [if_pos h5]
    have hd : (("ende:").data ++ a ++ [d1, d2, ':', d3, d4] ++ b ++
        ("uhr").data ++ c).drop 5 =
        a ++ (d1 :: d2 :: ':' :: d3 :: d4 :: (b ++ (("uhr").data ++ c))) := by
      simp only [List.append_assoc]
      rw [List.drop_left' (by decide)]
      simp
    have hdw : ((("ende:").data ++ a ++ [d1, d2, ':', d3, d4] ++ b ++
        ("uhr").data ++ c).drop 5).dropWhile pySpace =
        d1 :: d2 :: ':' :: d3 :: d4 :: (b ++ (("uhr").data ++ c)) := by
      rw [hd, dropWhile_append_of_all _ _ _ hwa, List.dropWhile_cons]
      simp [pySpace_false_of_digit hd1]
    simp only [hdw]
    rw [if_pos (by simp [hd1, hd2, hd3, hd4])]
    have hbw : ((b ++ (("uhr").data ++ c)).dropWhile pySpace) =
        ("uhr").data ++ c := by
      rw [dropWhile_append_of_all _ _ _ hwb,
        show ("uhr").data ++ c = 'u' :: (("hr").data ++ c) from rfl,
        List.dropWhile_cons]
      simp [show pySpace 'u' = false from by decide]
    rw [hbw]
    rw [if_pos (show (("uhr").data ++ c).take 3 = ("uhr").data from
      List.take_left' (by decide))]
    rw [show (("uhr").data ++ c).drop 3 = c from List.drop_left' (by decide)]
    exact (endeTailCheck_iff _).mpr htail

theorem endeSearch_iff (s : List Char) :
    endeSearch s = true ↔
      ∃ p ∈ lineStarts s, EndeMatchLow ((s.drop p).map Char.toLower) := by
  unfold endeSearch matchEndeAt
  rw [List.any_eq_true]
  constructor
  · rintro ⟨p, hp, hm⟩
    exact ⟨p, hp, (matchEndeCore_iff _).mp hm⟩
  · rintro ⟨p, hp, hm⟩
    exact ⟨p, hp, (matchEndeCore_iff _).mpr hm⟩

/-- C6 (amended): `last_plenum_took_place` is true iff the fragment formed
by joining the document's last two lines (or fewer) matches, starting at a
line start, the case-insensitive pattern `Ende:` + whitespace + `HH:MM` +
whitespace + `Uhr` + line-ending whitespace tail — where the whitespace runs
may span the newline joining the two lines, so a match may spread across
both lines; in particular it is true for a document whose last line is
exactly `Ende: 18:30 Uhr`, false when the last line is `Ende 18:30`, and
false for the empty document. -/
theorem c6_meeting_concluded :
    (∀ page : String, last_plenum_took_place page = true ↔
       ∃ p ∈ lineStarts (lastTwoFragment page.data),
         EndeMatchLow (((lastTwoFragment page.data).drop p).map
           Char.toLower)) ∧
    last_plenum_took_place ("Protokoll\nEnde: 18:30 Uhr") = true ∧
    last_plenum_took_place ("Protokoll\nEnde 18:30") = false ∧
    last_plenum_took_place ("") = false := by
  refine ⟨fun page => ?_, by decide, by decide, by decide⟩
  exact endeSearch_iff (lastTwoFragment page.data)
